import Mathlib

/-!
Verification of the player identity resolution and position-ranking engine
of `pull_league_data.py` (class `FantasyLeagueStandingsPuller`).

Shallow-embedding conventions:

* Python strings are Lean `String`s, manipulated through their `List Char`
  data.  Python's `str.lower`/`str.upper` and the regex character classes
  are modelled at the ASCII level (`pyLower`, `pyUpper`, `isSpaceChar`,
  `isWordChar`, `allowedChar`); the only characters the pipeline ever keeps
  are ASCII, so this matches the source on all inputs it distinguishes.
* Python dicts are association lists with unique keys in insertion order;
  `alookup` is `dict.get`, `dict_insert` is `d[k] = v`, `upsert_bucket` is
  `d.setdefault(k, []).append(x)`.
* Python `None` for optional fields is `Option`; a value that the source
  coalesces with `or ""` is modelled with `Option.getD ""`.
* Python floats that the source only compares (scoring averages, ADP
  values) are modelled as rationals `ℚ`.
* `rapidfuzz.process.extractOne(target, choices, score_cutoff=85)` is an
  uninterpreted total function `fuzzy : String → List String → Option
  String` carried in the pull state: the claims under verification do not
  depend on the similarity scoring itself.
* `re.sub(r"[^a-z0-9\s\.\-]", "", s)` is a character filter;
  `re.sub(r"\b(jr|sr|ii|iii|iv|v)\b\.?", "", s)` deletes every maximal
  word-character run equal to one of the six tokens together with one
  directly following period (a match of that pattern is exactly such a
  run, since the tokens consist of word characters and both ends must be
  word boundaries); `re.sub(r"\s+", " ", s)` collapses whitespace runs.
  The corresponding executable functions are `rsAux` and `collapseAux`.
* Python's `sorted` is a stable sort; stable sorts are unique, so it is
  modelled by stable insertion sorts (`insert_desc`, `insert_asc`).
-/

/-- ASCII model of `str.lower` applied characterwise. -/
def pyLower (c : Char) : Char :=
  if 65 ≤ c.toNat ∧ c.toNat ≤ 90 then Char.ofNat (c.toNat + 32) else c

/-- ASCII model of `str.upper` applied characterwise. -/
def pyUpper (c : Char) : Char :=
  if 97 ≤ c.toNat ∧ c.toNat ≤ 122 then Char.ofNat (c.toNat - 32) else c

/-- ASCII model of the regex class `\s`. -/
def isSpaceChar (c : Char) : Bool :=
  c = ' ' || c = '\t' || c = '\n' || c = '\x0d' || c = '\x0b' || c = '\x0c'

/-- ASCII model of the regex class `\w`, which determines `\b` boundaries. -/
def isWordChar (c : Char) : Bool :=
  c.isAlpha || c.isDigit || c = '_'

/-- The character class kept by `re.sub(r"[^a-z0-9\s\.\-]", "", s)`. -/
def allowedChar (c : Char) : Bool :=
  (97 ≤ c.toNat && c.toNat ≤ 122) || (48 ≤ c.toNat && c.toNat ≤ 57) ||
    isSpaceChar c || c = '.' || c = '-'

/-- The generational suffix tokens of `re.sub(r"\b(jr|sr|ii|iii|iv|v)\b\.?", "", s)`. -/
def suffix_tokens : List (List Char) :=
  [['j', 'r'], ['s', 'r'], ['i', 'i'], ['i', 'i', 'i'], ['i', 'v'], ['v']]

/-- Emit the word run accumulated (in reverse) in `acc`: a run equal to a
suffix token is deleted, any other run is kept. -/
def emit_run (acc rest : List Char) : List Char :=
  if acc.reverse ∈ suffix_tokens then rest else acc.reverse ++ rest

/-- Scan for the suffix regex: `acc` holds the current word-character run in
reverse.  At the end of a run equal to a token, the run is deleted together
with one directly following period. -/
def rsAux (acc : List Char) : List Char → List Char
  | [] => emit_run acc []
  | c :: cs =>
    if isWordChar c then rsAux (c :: acc) cs
    else if acc.reverse ∈ suffix_tokens && c = '.' then rsAux [] cs
    else emit_run acc (c :: rsAux [] cs)

/-- Model of `re.sub(r"\b(jr|sr|ii|iii|iv|v)\b\.?", "", s)`. -/
def removeSuffix (l : List Char) : List Char := rsAux [] l

/-- Model of `re.sub(r"\s+", " ", s)`: the flag records whether the previous
character belonged to a whitespace run already replaced by a space. -/
def collapseAux (inRun : Bool) : List Char → List Char
  | [] => []
  | c :: cs =>
    if isSpaceChar c then
      if inRun then collapseAux true cs else ' ' :: collapseAux true cs
    else c :: collapseAux false cs

/-- Model of `re.sub(r"\s+", " ", s)`. -/
def collapseSp (l : List Char) : List Char := collapseAux false l

/-- Model of `str.strip()`. -/
def stripSpaces (l : List Char) : List Char :=
  ((l.dropWhile isSpaceChar).reverse.dropWhile isSpaceChar).reverse

/-- The character-level pipeline of `_normalize_name`: lowercase, strip
disallowed characters, remove suffix tokens, collapse whitespace, trim. -/
def normChars (l : List Char) : List Char :=
  stripSpaces (collapseSp (removeSuffix ((l.map pyLower).filter allowedChar)))

/-- Embedding of `FantasyLeagueStandingsPuller._normalize_name`.  The
argument is optional because the source accepts `None` (`if not s`). -/
def normalize_name (s : Option String) : String :=
  match s with
  | none => ""
  | some t => if t = "" then "" else String.mk (normChars t.data)

/-- ASCII model of `str.upper`. -/
def str_upper (s : String) : String := String.mk (s.data.map pyUpper)

/-- Embedding of `_normalize_team`: uppercase and rewrite alias codes. -/
def normalize_team (team : String) : String :=
  if team = "" then ""
  else
    let t := str_upper team
    if t = "WSH" then "WAS"
    else if t = "JAX" then "JAC"
    else if t = "LA" then "LAR"
    else if t = "OAK" then "LV"
    else if t = "STL" then "LAR"
    else if t = "SD" then "LAC"
    else t

/-- The position computation `(entry.get("display_position") or
"").split("/")[0].upper()` followed by the `DEF → DST` rewrite, as performed
identically in every matcher and in `_lookup_yahoo_pos_rank`. -/
def normalize_pos (dp : String) : String :=
  let p := String.mk ((dp.data.takeWhile (fun c => c ≠ '/')).map pyUpper)
  if p = "DEF" then "DST" else p

/-- A record of the Sleeper players map (the fields the engine reads). -/
structure SPlayer where
  full_name : Option String := none
  last_name : Option String := none
  position : Option String := none
  team : Option String := none
deriving DecidableEq

/-- A serialized Yahoo roster entry (the fields the engine reads); the
source coalesces each field with `or ""`. -/
structure RosterEntry where
  name : String
  display_position : String
  editorial_team_abbr : String
deriving DecidableEq

/-- Python `dict.get`: association lists model dicts (unique keys in
insertion order). -/
def alookup {α : Type} : List (String × α) → String → Option α
  | [], _ => none
  | (k, v) :: m, k' => if k = k' then some v else alookup m k'

/-- Python `d[k] = v`: update in place, else append. -/
def dict_insert {α : Type} : List (String × α) → String → α → List (String × α)
  | [], k, v => [(k, v)]
  | (k', v') :: m, k, v =>
    if k' = k then (k, v) :: m else (k', v') :: dict_insert m k v

/-- Python `d.setdefault(k, []).append(x)`. -/
def upsert_bucket {α : Type} : List (String × List α) → String → α → List (String × List α)
  | [], k, x => [(k, [x])]
  | (k', b) :: m, k, x =>
    if k' = k then (k', b ++ [x]) :: m else (k', b) :: upsert_bucket m k x

/-- In-memory pull state: the two per-position rank tables, the Sleeper
players map (`name_to_ids`, `id_to_player`) and the fuzzy matcher. -/
structure PullState where
  sleeper_adp_pos_ranks : List (String × List (String × Nat))
  sleeper_pos_ranks : List (String × List (String × Nat))
  name_to_ids : List (String × List String)
  id_to_player : List (String × SPlayer)
  fuzzy : String → List String → Option String

/-- The exact-then-fuzzy candidate lookup shared verbatim by
`_match_sleeper_trending_rank` (lines 631-640), `_match_sleeper_adp_rank`
(lines 676-684) and `_match_sleeper_composite_rank` (lines 720-725). -/
def lookup_candidates (st : PullState) (norm : String) : List String :=
  let c := (alookup st.name_to_ids norm).getD []
  if c = [] then
    match st.fuzzy norm (st.name_to_ids.map Prod.fst) with
    | some k => (alookup st.name_to_ids k).getD []
    | none => []
  else c

/-- The candidate's position: `(p.get("position") or "").upper()` where
`p = id_to_player.get(pid) or {}`.  The `DEF → DST` rewrite is not applied
on this side in the source. -/
def cand_pos (st : PullState) (pid : String) : String :=
  str_upper (((alookup st.id_to_player pid).bind SPlayer.position).getD "")

/-- The candidate's team: `normalize_team(p.get("team") or "")`. -/
def cand_team (st : PullState) (pid : String) : String :=
  normalize_team (((alookup st.id_to_player pid).bind SPlayer.team).getD "")

/-- The position-and-team candidate filter of the two rank matchers
(lines 641-648 and 685-691). -/
def filtered_candidates (st : PullState) (e : RosterEntry) : List String :=
  (lookup_candidates st (normalize_name (some e.name))).filter fun pid =>
    cand_pos st pid == normalize_pos e.display_position &&
      (normalize_team e.editorial_team_abbr == "" || cand_team st pid == "" ||
        normalize_team e.editorial_team_abbr == cand_team st pid)

/-- One step of the best-rank loop of the matchers. -/
def best_step (m : List (String × Nat)) (acc : Option Nat) (pid : String) : Option Nat :=
  match alookup m pid with
  | none => acc
  | some r =>
    match acc with
    | none => some r
    | some b => if r < b then some r else some b

/-- The best-rank loop of the matchers: the least rank found among the
candidate ids, `none` when no candidate has a rank. -/
def best_rank (m : List (String × Nat)) (ids : List String) : Option Nat :=
  ids.foldl (best_step m) none

/-- The common body of `_match_sleeper_adp_rank` and
`_match_sleeper_trending_rank`, parameterized by the rank table consulted. -/
def match_rank_against (tables : List (String × List (String × Nat)))
    (st : PullState) (e : RosterEntry) : Option Nat :=
  if tables = [] then none
  else if e.name = "" then none
  else
    let pos := normalize_pos e.display_position
    let rank_map := (alookup tables pos).getD []
    if rank_map = [] then none
    else
      let ids := lookup_candidates st (normalize_name (some e.name))
      let f := filtered_candidates st e
      let use_ids := if f = [] then ids else f
      best_rank rank_map use_ids

/-- Embedding of `_match_sleeper_adp_rank`. -/
def match_sleeper_adp_rank (st : PullState) (e : RosterEntry) : Option Nat :=
  match_rank_against st.sleeper_adp_pos_ranks st e

/-- Embedding of `_match_sleeper_trending_rank`. -/
def match_sleeper_trending_rank (st : PullState) (e : RosterEntry) : Option Nat :=
  match_rank_against st.sleeper_pos_ranks st e

/-- Maximum over the values of a rank map (`max(rank_map.values())`,
guarded nonempty at every use site). -/
def max_rank_val (m : List (String × Nat)) : Nat :=
  (m.map Prod.snd).foldl Nat.max 0

/-- The fallback-rank computation of `_match_sleeper_composite_rank`
(lines 729-742): one more than the maximum ADP rank for the position, else
one more than the maximum trending rank, else `None`. -/
def pos_fallback_rank (st : PullState) (pos : String) : Option Nat :=
  let rank_map := (alookup st.sleeper_adp_pos_ranks pos).getD []
  if rank_map ≠ [] then some (max_rank_val rank_map + 1)
  else
    let tmap := (alookup st.sleeper_pos_ranks pos).getD []
    if tmap ≠ [] then some (max_rank_val tmap + 1) else none

/-- Embedding of `_match_sleeper_composite_rank`: ADP rank first, then
trending rank, then the positional fallback for the first same-position
candidate identity, else `None`. -/
def match_sleeper_composite_rank (st : PullState) (e : RosterEntry) : Option Nat :=
  match match_sleeper_adp_rank st e with
  | some r => some r
  | none =>
    match match_sleeper_trending_rank st e with
    | some r => some r
    | none =>
      let pos := normalize_pos e.display_position
      let ids := lookup_candidates st (normalize_name (some e.name))
      match ids.find? (fun pid => cand_pos st pid == pos) with
      | some _ => pos_fallback_rank st pos
      | none => none

/-- Boolean predicate: no maximal word-character run of `acc.reverse ++ l`
(with `acc` an already-scanned reversed run) equals a suffix token — i.e.
the suffix regex has no match there. -/
def ntAux (acc : List Char) : List Char → Bool
  | [] => !(decide (acc.reverse ∈ suffix_tokens))
  | c :: cs =>
    if isWordChar c then ntAux (c :: acc) cs
    else (!(decide (acc.reverse ∈ suffix_tokens))) && ntAux [] cs

/-- Boolean predicate: all whitespace is a single plain space between
non-space characters (`flag` = previous character was a space). -/
def ssAux (prevSpace : Bool) : List Char → Bool
  | [] => true
  | c :: cs =>
    if isSpaceChar c then (decide (c = ' ') && !prevSpace) && ssAux true cs
    else ssAux false cs

/-- The head of a list is not a space. -/
def noLead : List Char → Bool
  | [] => true
  | c :: _ => !isSpaceChar c

/-- The character class of claim C8's reference pipeline, `[a-z0-9 .-]`:
lowercase letters, digits, the space character (only), period, hyphen.
Unlike the source's regex class it does not admit the other whitespace
characters of `\s`. -/
def spec_allowed_char (c : Char) : Bool :=
  (97 ≤ c.toNat && c.toNat ≤ 122) || (48 ≤ c.toNat && c.toNat ≤ 57) ||
    c = ' ' || c = '.' || c = '-'

/-- Reference pipeline of the specification (§4.1) as claim C8 words it:
lowercase; strip every character outside `[a-z0-9 .-]` (space only);
remove standalone generational suffix tokens with an optional following
period; collapse internal whitespace to single spaces; trim; `None`
behaves as the empty string and the function is total. -/
def spec_normalize_name (s : Option String) : String :=
  String.mk (stripSpaces (collapseSp (removeSuffix
    (((s.getD "").data.map pyLower).filter spec_allowed_char))))

/-- A concrete pull state in which the ADP table ranks player id 1 third
at WR and the trending table ranks the same player seventh. -/
def st_c1 : PullState where
  sleeper_adp_pos_ranks := [("WR", [("1", 3)])]
  sleeper_pos_ranks := [("WR", [("1", 7)])]
  name_to_ids := [("john smith", ["1"])]
  id_to_player := [("1", ⟨some "John Smith", none, some "WR", some "KC"⟩)]
  fuzzy := fun _ _ => none

/-- A concrete WR roster entry. -/
def entry_ws : RosterEntry := ⟨"John Smith", "WR", "KC"⟩

/-- A pull state whose ADP WR table ranks only player id 2 (rank 5), whose
trending tables are empty, and whose identity index knows player id 1 at
WR: id 1 is known but unranked. -/
def st_c2 : PullState where
  sleeper_adp_pos_ranks := [("WR", [("2", 5)])]
  sleeper_pos_ranks := []
  name_to_ids := [("john smith", ["1"])]
  id_to_player := [("1", ⟨some "John Smith", none, some "WR", some "KC"⟩)]
  fuzzy := fun _ _ => none

/-- A pull state whose id 7 is a WR on team NE, ranked 4 in the trending WR
table; the roster entry being resolved plays WR for KC. -/
def st_c4 : PullState where
  sleeper_adp_pos_ranks := []
  sleeper_pos_ranks := [("WR", [("7", 4)])]
  name_to_ids := [("john smith", ["7"])]
  id_to_player := [("7", ⟨some "John Smith", none, some "WR", some "NE"⟩)]
  fuzzy := fun _ _ => none

/-- Stable insertion: `precede x y` means the new element `x` must come
strictly before `y`; on ties it is placed after, preserving input order.
A stable sort's output is unique, so this models Python's `sorted`. -/
def stable_insert {α : Type} (precede : α → α → Bool) (x : α) : List α → List α
  | [] => [x]
  | y :: ys => if precede x y then x :: y :: ys else y :: stable_insert precede x ys

/-- Stable sort by repeated insertion (model of Python `sorted`). -/
def stable_sort {α : Type} (precede : α → α → Bool) (l : List α) : List α :=
  l.foldl (fun acc x => stable_insert precede x acc) []

/-- Lexicographic strict order on the `(primary, tiebreak)` sort key,
matching Python tuple comparison. -/
def ylex_lt (p q : ℚ × ℚ) : Bool :=
  decide (p.1 < q.1) || (decide (p.1 = q.1) && decide (p.2 < q.2))

/-- Descending-by-key precedence for `sorted(..., reverse=True)` with key
`(avg, last_week_pts)` (line 366-370 of the source). -/
def yprecede (x y : String × ℚ × ℚ) : Bool := ylex_lt y.2 x.2

/-- Ascending precedence for `items.sort(key=lambda x: x[0])` (line 524). -/
def aprecede (x y : ℚ × String) : Bool := decide (x.1 < y.1)

/-- Dense rank assignment `for idx, name in enumerate(items, start=1):
rank_map[name] = idx` over a Python dict. -/
def ranks_fold (i : Nat) : List String → List (String × Nat) → List (String × Nat)
  | [], m => m
  | n :: ns, m => ranks_fold (i + 1) ns (dict_insert m n i)

/-- The association list `[(n₁, i), (n₂, i+1), ...]`. -/
def zip_ranks (i : Nat) : List String → List (String × Nat)
  | [] => []
  | n :: ns => (n, i) :: zip_ranks (i + 1) ns

/-- Embedding of the ranking loop of `_build_yahoo_pos_ranks` for one
position: stats entries are `(normalized_name, (avg_ppg, last_week_pts))`
(the cached original name is not read by the ranking code). -/
def build_yahoo_pos_ranks_one (stats : List (String × ℚ × ℚ)) : List (String × Nat) :=
  ranks_fold 1 ((stable_sort yprecede stats).map Prod.fst) []

/-- Embedding of `_build_yahoo_pos_ranks`: per-position rank maps. -/
def build_yahoo_pos_ranks (pts : List (String × List (String × ℚ × ℚ))) :
    List (String × List (String × Nat)) :=
  pts.map (fun pl => (pl.1, build_yahoo_pos_ranks_one pl.2))

/-- Embedding of the grouping loop of `_fetch_sleeper_adp_pos_ranks`
(lines 512-520): bucket `(adp_val, pid)` records by the player's position. -/
def adp_group (records : List (String × ℚ)) (itp : List (String × SPlayer)) :
    List (String × List (ℚ × String)) :=
  records.foldl
    (fun acc pr =>
      let pos0 := str_upper (((alookup itp pr.1).bind SPlayer.position).getD "")
      let pos := if pos0 = "DEF" then "DST" else pos0
      if pos = "" then acc else upsert_bucket acc pos (pr.2, pr.1))
    []

/-- Embedding of the ranking loop of `_fetch_sleeper_adp_pos_ranks`
(lines 522-528) for one position. -/
def adp_rank_one (items : List (ℚ × String)) : List (String × Nat) :=
  ranks_fold 1 ((stable_sort aprecede items).map Prod.snd) []

/-- Embedding of `_fetch_sleeper_adp_pos_ranks` downstream of the HTTP
fetch: group by position, sort by ADP ascending, assign dense ranks. -/
def fetch_sleeper_adp_pos_ranks (records : List (String × ℚ))
    (itp : List (String × SPlayer)) : List (String × List (String × Nat)) :=
  (adp_group records itp).map (fun pl => (pl.1, adp_rank_one pl.2))

/-- Concrete Yahoo builder input for the C5 witness. -/
def ystats_w : List (String × ℚ × ℚ) := [("a", 10, 0), ("b", 12, 0)]

/-- Concrete per-position stats table for the C5 witness. -/
def ypts_w : List (String × List (String × ℚ × ℚ)) := [("WR", ystats_w)]

/-- Concrete ADP records for the C5 witness. -/
def arecs_w : List (String × ℚ) := [("1", 3), ("2", 2)]

/-- Concrete Sleeper players map for the C5 witness. -/
def aitp_w : List (String × SPlayer) :=
  [("1", ⟨none, none, some "QB", none⟩), ("2", ⟨none, none, some "QB", none⟩)]

/-- Concrete grouped ADP items for the C5 witness. -/
def aitems_w : List (ℚ × String) := [(3, "1"), (2, "2")]

/-- The rational 71/5, i.e. the score 14.2 of claim C6, in a constructor
form the kernel can evaluate. -/
def q14_2 : ℚ := ⟨71, 5, by decide, by decide⟩

/-- The effective name of a Sleeper record:
`p.get("full_name") or p.get("last_name")` (line 550). -/
def eff_name (p : SPlayer) : String :=
  if p.full_name.getD "" ≠ "" then p.full_name.getD "" else p.last_name.getD ""

/-- One iteration of the `_fetch_sleeper_players` index-building loop
(lines 547-556): skip nameless records, record the player, and append its
id to the bucket of its normalized name when that name is nonempty. -/
def sleeper_index_step
    (acc : List (String × List String) × List (String × SPlayer))
    (rec : String × SPlayer) :
    List (String × List String) × List (String × SPlayer) :=
  let fn := eff_name rec.2
  if fn = "" then acc
  else
    let norm := normalize_name (some fn)
    let itp := acc.2 ++ [(rec.1, rec.2)]
    if norm = "" then (acc.1, itp) else (upsert_bucket acc.1 norm rec.1, itp)

/-- Embedding of `_fetch_sleeper_players` downstream of the HTTP fetch:
builds `(name_to_ids, id_to_player)`. -/
def fetch_sleeper_players_maps (data : List (String × SPlayer)) :
    List (String × List String) × List (String × SPlayer) :=
  data.foldl sleeper_index_step ([], [])

/-- The `name_to_ids` component of the index-building loop in isolation. -/
def sleeper_nti_step (m : List (String × List String)) (rec : String × SPlayer) :
    List (String × List String) :=
  let fn := eff_name rec.2
  if fn = "" then m
  else if normalize_name (some fn) = "" then m
  else upsert_bucket m (normalize_name (some fn)) rec.1

/-- Membership of an id in the bucket of a given normalized name. -/
def in_bucket (m : List (String × List String)) (k pid : String) : Prop :=
  ∃ b, alookup m k = some b ∧ pid ∈ b

/-- A one-record players map whose only record has name "Jr.", which
normalizes to the empty string. -/
def data_c9 : List (String × SPlayer) := [("1", ⟨some "Jr.", none, some "QB", none⟩)]

/-- Concrete players dict for the C9 witness: two distinct ids whose
names normalize to the same string "john smith". -/
def data_c9w : List (String × SPlayer) :=
  [("1", ⟨some "John Smith Jr.", none, some "WR", some "KC"⟩),
   ("2", ⟨some "john SMITH", none, some "WR", some "NE"⟩)]

/-- Embedding of `_lookup_yahoo_pos_rank`, the function `serialize_roster`
uses to attach `pos_rank` to each roster entry (line 190). -/
def lookup_yahoo_pos_rank (ranks : List (String × List (String × Nat)))
    (e : RosterEntry) : Option Nat :=
  if ranks = [] then none
  else if e.name = "" then none
  else if normalize_pos e.display_position = "" then none
  else
    alookup ((alookup ranks (normalize_pos e.display_position)).getD [])
      (normalize_name (some e.name))

/-- The behaviour claim C10 states for the attached `pos_rank`: an exact
normalized-name lookup in the per-position rank map, `None` when name or
position is missing, when the position has no rank map, or when the
normalized name is not a key — no fuzzy matching, no fallback rank. -/
def pos_rank_spec (ranks : List (String × List (String × Nat)))
    (e : RosterEntry) : Option Nat :=
  if e.name = "" ∨ normalize_pos e.display_position = "" then none
  else
    match alookup ranks (normalize_pos e.display_position) with
    | none => none
    | some m => alookup m (normalize_name (some e.name))

/-! Sanity checks: the executable embedding on concrete inputs, including
the spec's §8 normalization test vectors. -/

/-- Suffix and punctuation handling of `_normalize_name` on a concrete name. -/
theorem normalize_name_example_suffix :
    normalize_name (some "John Smith Jr.") = "john smith" := by decide

/-- Initials with periods are kept by `_normalize_name`. -/
theorem normalize_name_example_initials :
    normalize_name (some "D.J. Moore") = "d.j. moore" := by decide

/-- Whitespace collapse and trim of `_normalize_name`. -/
theorem normalize_name_example_spaces :
    normalize_name (some "  A   B ") = "a b" := by decide

/-- Spec §8: `normalize_name("Smith Jr.") == normalize_name("Smith")`. -/
theorem normalize_name_example_smith :
    normalize_name (some "Smith Jr.") = normalize_name (some "Smith") := by decide

/-- A run of word characters not equal to a suffix token is kept whole. -/
theorem normalize_name_example_viii :
    normalize_name (some "viii") = "viii" := by decide

/-- Position normalization takes the first slash component, uppercased. -/
theorem normalize_pos_example : normalize_pos "WR/RB" = "WR" := by decide

/-- DEF is rewritten to DST. -/
theorem normalize_pos_example_def : normalize_pos "def" = "DST" := by decide

/-- Team alias rewriting in `_normalize_team`. -/
theorem normalize_team_example : normalize_team "Jax" = "JAC" := by decide

/-! Character-class facts used by the normalization proofs. -/

theorem pyLower_fixed_of_allowed (c : Char) (h : allowedChar c = true) :
    pyLower c = c := by
  unfold allowedChar at h
  simp only [Bool.or_eq_true, Bool.and_eq_true, decide_eq_true_eq] at h
  unfold pyLower
  rcases h with ((((⟨h1, h2⟩ | ⟨h1, h2⟩) | h) | h) | h)
  · rw [if_neg (by omega)]
  · rw [if_neg (by omega)]
  · unfold isSpaceChar at h
    simp only [Bool.or_eq_true, decide_eq_true_eq] at h
    rcases h with ((((h | h) | h) | h) | h) | h <;> subst h <;> decide
  · subst h; decide
  · subst h; decide

theorem not_word_of_space (c : Char) (h : isSpaceChar c = true) :
    isWordChar c = false := by
  unfold isSpaceChar at h
  simp only [Bool.or_eq_true, decide_eq_true_eq] at h
  rcases h with ((((h | h) | h) | h) | h) | h <;> subst h <;> decide

theorem mem_of_mem_dropWhile {α : Type} (p : α → Bool) (c : α) :
    ∀ l : List α, c ∈ l.dropWhile p → c ∈ l := by
  intro l h
  induction l with
  | nil => rw [List.dropWhile_nil] at h; exact absurd h (List.not_mem_nil c)
  | cons a t ih =>
    rw [List.dropWhile_cons] at h
    by_cases hp : p a = true
    · simp only [hp, if_true] at h
      exact List.mem_cons_of_mem a (ih h)
    · simp only [hp, if_false] at h
      exact h

theorem allowed_of_mem_takeWhile (p : Char → Bool) (c : Char) :
    ∀ l : List Char, c ∈ l.takeWhile p → p c = true := by
  intro l h
  induction l with
  | nil => rw [List.takeWhile_nil] at h; exact absurd h (List.not_mem_nil c)
  | cons a t ih =>
    rw [List.takeWhile_cons] at h
    by_cases hp : p a = true
    · simp only [hp, if_true, List.mem_cons] at h
      rcases h with h | h
      · exact h ▸ hp
      · exact ih h
    · simp only [hp, if_false] at h
      exact absurd h (List.not_mem_nil c)

theorem mem_emit_run (c : Char) (acc rest : List Char)
    (h : c ∈ emit_run acc rest) : c ∈ acc ∨ c ∈ rest := by
  unfold emit_run at h
  split at h
  · exact Or.inr h
  · rcases List.mem_append.mp h with h | h
    · exact Or.inl (List.mem_reverse.mp h)
    · exact Or.inr h

theorem mem_rsAux (c : Char) :
    ∀ (l acc : List Char), c ∈ rsAux acc l → c ∈ acc ∨ c ∈ l := by
  intro l
  induction l with
  | nil =>
    intro acc h
    rw [rsAux] at h
    rcases mem_emit_run c acc [] h with h | h
    · exact Or.inl h
    · exact absurd h (List.not_mem_nil c)
  | cons a t ih =>
    intro acc h
    rw [rsAux] at h
    split at h
    · rcases ih _ h with h | h
      · rcases List.mem_cons.mp h with h | h
        · exact Or.inr (h ▸ List.mem_cons_self a t)
        · exact Or.inl h
      · exact Or.inr (List.mem_cons_of_mem a h)
    · split at h
      · rcases ih _ h with h | h
        · exact absurd h (List.not_mem_nil c)
        · exact Or.inr (List.mem_cons_of_mem a h)
      · rcases mem_emit_run c acc _ h with h | h
        · exact Or.inl h
        · rcases List.mem_cons.mp h with h | h
          · exact Or.inr (h ▸ List.mem_cons_self a t)
          · rcases ih _ h with h | h
            · exact absurd h (List.not_mem_nil c)
            · exact Or.inr (List.mem_cons_of_mem a h)

theorem mem_collapseAux (c : Char) :
    ∀ (l : List Char) (b : Bool), c ∈ collapseAux b l → c = ' ' ∨ c ∈ l := by
  intro l
  induction l with
  | nil => intro b h; simp [collapseAux] at h
  | cons a t ih =>
    intro b h
    rw [collapseAux] at h
    split at h
    · split at h
      · rcases ih _ h with h | h
        · exact Or.inl h
        · exact Or.inr (List.mem_cons_of_mem a h)
      · rcases List.mem_cons.mp h with h | h
        · exact Or.inl h
        · rcases ih _ h with h | h
          · exact Or.inl h
          · exact Or.inr (List.mem_cons_of_mem a h)
    · rcases List.mem_cons.mp h with h | h
      · exact Or.inr (h ▸ List.mem_cons_self a t)
      · rcases ih _ h with h | h
        · exact Or.inl h
        · exact Or.inr (List.mem_cons_of_mem a h)

theorem mem_stripSpaces (c : Char) (l : List Char) (h : c ∈ stripSpaces l) :
    c ∈ l := by
  unfold stripSpaces at h
  rw [List.mem_reverse] at h
  have h1 := mem_of_mem_dropWhile isSpaceChar c _ h
  rw [List.mem_reverse] at h1
  exact mem_of_mem_dropWhile isSpaceChar c _ h1

theorem mem_normChars (c : Char) (l : List Char) (h : c ∈ normChars l) :
    c = ' ' ∨ allowedChar c = true := by
  unfold normChars at h
  have h1 := mem_stripSpaces c _ h
  rcases mem_collapseAux c _ false h1 with h2 | h2
  · exact Or.inl h2
  · rcases mem_rsAux c _ [] h2 with h3 | h3
    · exact absurd h3 (List.not_mem_nil c)
    · exact Or.inr (List.of_mem_filter h3)

/-- Scanning a word-character run accumulates it. -/
theorem ntAux_accum (r : List Char) :
    ∀ (x acc : List Char), (∀ a ∈ r, isWordChar a = true) →
      ntAux acc (r ++ x) = ntAux (r.reverse ++ acc) x := by
  induction r with
  | nil => intro x acc _; simp
  | cons a t ih =>
    intro x acc h
    have ha : isWordChar a = true := h a (List.mem_cons_self a t)
    rw [List.cons_append, ntAux, if_pos ha,
      ih x (a :: acc) (fun b hb => h b (List.mem_cons_of_mem a hb))]
    simp [List.append_assoc]

/-- If the suffix regex has no match, suffix removal is the identity. -/
theorem rsAux_id_of_ntAux :
    ∀ (l acc : List Char), ntAux acc l = true → rsAux acc l = acc.reverse ++ l := by
  intro l
  induction l with
  | nil =>
    intro acc h
    rw [ntAux] at h
    rw [rsAux, emit_run, if_neg (by simpa using h)]
  | cons c cs ih =>
    intro acc h
    rw [ntAux] at h
    rw [rsAux]
    by_cases hw : isWordChar c = true
    · rw [if_pos hw] at h ⊢
      rw [ih _ h]
      simp
    · rw [if_neg hw] at h ⊢
      rw [Bool.and_eq_true] at h
      have hnt : acc.reverse ∉ suffix_tokens := by simpa using h.1
      rw [if_neg (by simp [hnt]), emit_run, if_neg hnt, ih _ h.2]
      simp

/-- Suffix removal leaves no match of the suffix regex behind. -/
theorem ntAux_rsAux :
    ∀ (l acc : List Char), (∀ a ∈ acc, isWordChar a = true) →
      ntAux [] (rsAux acc l) = true := by
  intro l
  induction l with
  | nil =>
    intro acc h
    rw [rsAux, emit_run]
    split
    · decide
    · rw [show (acc.reverse : List Char) ++ [] = acc.reverse ++ [] from rfl,
        ntAux_accum acc.reverse [] [] (fun a ha => h a (List.mem_reverse.mp ha))]
      simp only [List.reverse_reverse, List.append_nil]
      rw [ntAux]
      simp_all
  | cons c cs ih =>
    intro acc h
    rw [rsAux]
    by_cases hw : isWordChar c = true
    · rw [if_pos hw]
      exact ih (c :: acc) (by
        intro a ha
        rcases List.mem_cons.mp ha with ha | ha
        · exact ha ▸ hw
        · exact h a ha)
    · rw [if_neg hw]
      by_cases hp : (decide (acc.reverse ∈ suffix_tokens) && decide (c = '.')) = true
      · rw [if_pos hp]
        exact ih [] (by intro a ha; exact absurd ha (List.not_mem_nil a))
      · rw [if_neg hp, emit_run]
        have hX : ntAux [] (rsAux [] cs) = true :=
          ih [] (by intro a ha; exact absurd ha (List.not_mem_nil a))
        split
        · rw [ntAux, if_neg hw]
          rw [Bool.and_eq_true]
          exact ⟨by decide, hX⟩
        · rename_i hnt
          rw [ntAux_accum acc.reverse _ [] (fun a ha => h a (List.mem_reverse.mp ha))]
          simp only [List.reverse_reverse, List.append_nil]
          rw [ntAux, if_neg hw]
          simp only [Bool.and_eq_true]
          exact ⟨by simpa using hnt, hX⟩

/-- Whitespace collapse preserves absence of suffix-regex matches. -/
theorem ntAux_collapseAux :
    ∀ cs : List Char,
      (∀ acc, ntAux acc cs = true → ntAux acc (collapseAux false cs) = true) ∧
        (ntAux [] cs = true → ntAux [] (collapseAux true cs) = true) := by
  intro cs
  induction cs with
  | nil => exact ⟨fun acc h => h, fun h => h⟩
  | cons c cs ih =>
    by_cases hs : isSpaceChar c = true
    · have hw : isWordChar c = false := not_word_of_space c hs
      have hcol0 : collapseAux false (c :: cs) = ' ' :: collapseAux true cs := by
        simp [collapseAux, hs]
      have hcol1 : collapseAux true (c :: cs) = collapseAux true cs := by
        simp [collapseAux, hs]
      constructor
      · intro acc h
        rw [hcol0]
        rw [ntAux, if_neg (by simp [hw]), Bool.and_eq_true] at h
        rw [ntAux, if_neg (by decide), Bool.and_eq_true]
        exact ⟨h.1, ih.2 h.2⟩
      · intro h
        rw [hcol1]
        rw [ntAux, if_neg (by simp [hw]), Bool.and_eq_true] at h
        exact ih.2 h.2
    · have hcol : ∀ b, collapseAux b (c :: cs) = c :: collapseAux false cs := by
        intro b; rw [collapseAux, if_neg hs]
      constructor
      · intro acc h
        rw [hcol]
        by_cases hw : isWordChar c = true
        · rw [ntAux, if_pos hw] at h ⊢
          exact (ih.1 (c :: acc)) h
        · rw [ntAux, if_neg hw] at h ⊢
          rw [Bool.and_eq_true] at h ⊢
          exact ⟨h.1, ih.1 [] h.2⟩
      · intro h
        rw [hcol]
        by_cases hw : isWordChar c = true
        · rw [ntAux, if_pos hw] at h ⊢
          exact (ih.1 [c]) h
        · rw [ntAux, if_neg hw] at h ⊢
          rw [Bool.and_eq_true] at h ⊢
          exact ⟨h.1, ih.1 [] h.2⟩

/-- Dropping leading whitespace preserves absence of matches. -/
theorem ntAux_dropWhile_space :
    ∀ l : List Char, ntAux [] l = true →
      ntAux [] (l.dropWhile isSpaceChar) = true := by
  intro l
  induction l with
  | nil => intro h; exact h
  | cons c cs ih =>
    intro h
    rw [List.dropWhile_cons]
    by_cases hs : isSpaceChar c = true
    · rw [if_pos hs]
      rw [ntAux, if_neg (by simp [not_word_of_space c hs]), Bool.and_eq_true] at h
      exact ih h.2
    · rw [if_neg hs]
      exact h

/-- Removing an all-whitespace suffix preserves absence of matches. -/
theorem ntAux_of_append_spaces :
    ∀ (p s : List Char) (acc : List Char), (∀ a ∈ s, isSpaceChar a = true) →
      ntAux acc (p ++ s) = true → ntAux acc p = true := by
  intro p
  induction p with
  | nil =>
    intro s acc hs h
    cases s with
    | nil => exact h
    | cons d t =>
      rw [List.nil_append, ntAux,
        if_neg (by simp [not_word_of_space d (hs d (List.mem_cons_self d t))]),
        Bool.and_eq_true] at h
      rw [ntAux]
      simpa using h.1
  | cons c cs ih =>
    intro s acc hs h
    rw [List.cons_append] at h
    by_cases hw : isWordChar c = true
    · rw [ntAux, if_pos hw] at h ⊢
      exact ih s (c :: acc) hs h
    · rw [ntAux, if_neg hw] at h ⊢
      rw [Bool.and_eq_true] at h ⊢
      exact ⟨h.1, ih s [] hs h.2⟩

/-- Decomposition of `str.strip`'s right side: the kept part is a prefix
and the removed part is all whitespace. -/
theorem stripR_decomp (l : List Char) :
    ∃ s : List Char, (∀ a ∈ s, isSpaceChar a = true) ∧
      l = (l.reverse.dropWhile isSpaceChar).reverse ++ s := by
  refine ⟨(l.reverse.takeWhile isSpaceChar).reverse, ?_, ?_⟩
  · intro a ha
    exact allowed_of_mem_takeWhile isSpaceChar a _ (List.mem_reverse.mp ha)
  · calc l = l.reverse.reverse := by rw [List.reverse_reverse]
    _ = ((l.reverse.takeWhile isSpaceChar) ++ (l.reverse.dropWhile isSpaceChar)).reverse := by
        rw [List.takeWhile_append_dropWhile]
    _ = _ := by rw [List.reverse_append]

/-- The full normalization pipeline leaves no suffix-regex match. -/
theorem ntAux_normChars (l : List Char) : ntAux [] (normChars l) = true := by
  unfold normChars removeSuffix collapseSp stripSpaces
  set z2 := (l.map pyLower).filter allowedChar with hz2
  have h3 : ntAux [] (rsAux [] z2) = true :=
    ntAux_rsAux z2 [] (by intro a ha; exact absurd ha (List.not_mem_nil a))
  have h4 : ntAux [] (collapseAux false (rsAux [] z2)) = true :=
    (ntAux_collapseAux _).1 [] h3
  set u := collapseAux false (rsAux [] z2) with hu
  have h5 : ntAux [] (u.dropWhile isSpaceChar) = true := ntAux_dropWhile_space u h4
  obtain ⟨s, hs, hdec⟩ := stripR_decomp (u.dropWhile isSpaceChar)
  refine ntAux_of_append_spaces _ s [] hs ?_
  rw [← hdec]
  exact h5

/-- Whitespace collapse produces single plain spaces. -/
theorem ssAux_collapseAux :
    ∀ (l : List Char) (b : Bool), ssAux b (collapseAux b l) = true := by
  intro l
  induction l with
  | nil => intro b; rfl
  | cons c cs ih =>
    intro b
    by_cases hs : isSpaceChar c = true
    · cases b with
      | true =>
        have : collapseAux true (c :: cs) = collapseAux true cs := by
          simp [collapseAux, hs]
        rw [this]; exact ih true
      | false =>
        have : collapseAux false (c :: cs) = ' ' :: collapseAux true cs := by
          simp [collapseAux, hs]
        rw [this, ssAux, if_pos (by decide)]
        simpa using ih true
    · have : collapseAux b (c :: cs) = c :: collapseAux false cs := by
        rw [collapseAux, if_neg hs]
      rw [this, ssAux, if_neg hs]
      exact ih false

/-- Dropping leading whitespace preserves single-spacing. -/
theorem ssAux_dropWhile :
    ∀ (l : List Char) (b : Bool), ssAux b l = true →
      ssAux false (l.dropWhile isSpaceChar) = true := by
  intro l
  induction l with
  | nil => intro b h; exact h
  | cons c cs ih =>
    intro b h
    rw [List.dropWhile_cons]
    by_cases hs : isSpaceChar c = true
    · rw [if_pos hs]
      rw [ssAux, if_pos hs, Bool.and_eq_true] at h
      exact ih true h.2
    · rw [if_neg hs]
      rw [ssAux, if_neg hs] at h ⊢
      exact h

/-- Removing a suffix preserves single-spacing. -/
theorem ssAux_of_append :
    ∀ (p s : List Char) (b : Bool), ssAux b (p ++ s) = true → ssAux b p = true := by
  intro p
  induction p with
  | nil => intro s b _; rfl
  | cons c cs ih =>
    intro s b h
    rw [List.cons_append] at h
    by_cases hs : isSpaceChar c = true
    · rw [ssAux, if_pos hs, Bool.and_eq_true] at h ⊢
      exact ⟨h.1, ih s true h.2⟩
    · rw [ssAux, if_neg hs] at h ⊢
      exact ih s false h

/-- On a single-spaced string, whitespace collapse is the identity. -/
theorem collapseAux_id_of_ssAux :
    ∀ (l : List Char) (b : Bool), ssAux b l = true → collapseAux b l = l := by
  intro l
  induction l with
  | nil => intro b _; rfl
  | cons c cs ih =>
    intro b h
    by_cases hs : isSpaceChar c = true
    · rw [ssAux, if_pos hs, Bool.and_eq_true, Bool.and_eq_true] at h
      obtain ⟨⟨hsp, hb⟩, ht⟩ := h
      have hb' : b = false := by
        cases b
        · rfl
        · simp at hb
      subst hb'
      have hc : c = ' ' := by simpa using hsp
      have : collapseAux false (c :: cs) = ' ' :: collapseAux true cs := by
        simp [collapseAux, hs]
      rw [this, ih true ht, hc]
    · rw [ssAux, if_neg hs] at h
      rw [collapseAux, if_neg hs, ih false h]

theorem noLead_dropWhile (l : List Char) :
    noLead (l.dropWhile isSpaceChar) = true := by
  induction l with
  | nil => rfl
  | cons c cs ih =>
    rw [List.dropWhile_cons]
    by_cases hs : isSpaceChar c = true
    · rw [if_pos hs]; exact ih
    · rw [if_neg hs]
      simpa [noLead] using hs

theorem dropWhile_id_of_noLead (l : List Char) (h : noLead l = true) :
    l.dropWhile isSpaceChar = l := by
  cases l with
  | nil => rfl
  | cons c cs =>
    rw [List.dropWhile_cons, if_neg]
    simpa [noLead] using h

theorem noLead_prefix : ∀ p s : List Char, noLead (p ++ s) = true → noLead p = true := by
  intro p s h
  cases p with
  | nil => rfl
  | cons c cs => exact h

theorem stripSpaces_id (l : List Char) (h1 : noLead l = true)
    (h2 : noLead l.reverse = true) : stripSpaces l = l := by
  unfold stripSpaces
  rw [dropWhile_id_of_noLead l h1, dropWhile_id_of_noLead l.reverse h2,
    List.reverse_reverse]

theorem map_pyLower_id (l : List Char) (h : ∀ c ∈ l, pyLower c = c) :
    l.map pyLower = l := by
  induction l with
  | nil => rfl
  | cons c cs ih =>
    rw [List.map_cons, h c (List.mem_cons_self c cs),
      ih (fun a ha => h a (List.mem_cons_of_mem c ha))]

theorem filter_allowed_id (l : List Char) (h : ∀ c ∈ l, allowedChar c = true) :
    l.filter allowedChar = l := by
  induction l with
  | nil => rfl
  | cons c cs ih =>
    rw [List.filter_cons, if_pos (h c (List.mem_cons_self c cs)),
      ih (fun a ha => h a (List.mem_cons_of_mem c ha))]

theorem ssAux_normChars (l : List Char) : ssAux false (normChars l) = true := by
  unfold normChars collapseSp stripSpaces
  set u := collapseAux false (removeSuffix ((l.map pyLower).filter allowedChar)) with hu
  have h2 : ssAux false (u.dropWhile isSpaceChar) = true :=
    ssAux_dropWhile u false (ssAux_collapseAux _ false)
  obtain ⟨s, hs, hdec⟩ := stripR_decomp (u.dropWhile isSpaceChar)
  apply ssAux_of_append _ s false
  rw [← hdec]
  exact h2

theorem noLead_normChars (l : List Char) : noLead (normChars l) = true := by
  unfold normChars stripSpaces
  set w := (collapseSp (removeSuffix ((l.map pyLower).filter allowedChar))).dropWhile
    isSpaceChar with hwdef
  obtain ⟨s, hs, hdec⟩ := stripR_decomp w
  apply noLead_prefix _ s
  rw [← hdec]
  exact noLead_dropWhile _

theorem noTrail_normChars (l : List Char) : noLead (normChars l).reverse = true := by
  unfold normChars stripSpaces
  rw [List.reverse_reverse]
  exact noLead_dropWhile _

/-- Idempotence of the character-level normalization pipeline. -/
theorem normChars_idem (l : List Char) : normChars (normChars l) = normChars l := by
  have h1 : (normChars l).map pyLower = normChars l := by
    apply map_pyLower_id
    intro c hc
    rcases mem_normChars c l hc with h | h
    · subst h; decide
    · exact pyLower_fixed_of_allowed c h
  have h2 : (normChars l).filter allowedChar = normChars l := by
    apply filter_allowed_id
    intro c hc
    rcases mem_normChars c l hc with h | h
    · subst h; decide
    · exact h
  have h3 : removeSuffix (normChars l) = normChars l := by
    unfold removeSuffix
    rw [rsAux_id_of_ntAux _ [] (ntAux_normChars l)]
    simp
  have h4 : collapseSp (normChars l) = normChars l :=
    collapseAux_id_of_ssAux _ false (ssAux_normChars l)
  have h5 : stripSpaces (normChars l) = normChars l :=
    stripSpaces_id _ (noLead_normChars l) (noTrail_normChars l)
  calc normChars (normChars l)
      = stripSpaces (collapseSp (removeSuffix
          (((normChars l).map pyLower).filter allowedChar))) := rfl
    _ = normChars l := by rw [h1, h2, h3, h4, h5]

theorem normalize_some (t : String) (h : t ≠ "") :
    normalize_name (some t) = String.mk (normChars t.data) := by
  show (if t = "" then "" else String.mk (normChars t.data)) = String.mk (normChars t.data)
  rw [if_neg h]

/-- Claim C7: `_normalize_name` is idempotent — for every string `x`,
normalizing the result of normalization returns it unchanged. -/
theorem normalize_name_idem (x : String) :
    normalize_name (some (normalize_name (some x))) = normalize_name (some x) := by
  by_cases hx : x = ""
  · subst hx; rfl
  · rw [normalize_some x hx]
    by_cases hy : String.mk (normChars x.data) = ""
    · rw [hy]
      rfl
    · rw [normalize_some _ hy]
      show String.mk (normChars (normChars x.data)) = String.mk (normChars x.data)
      rw [normChars_idem]

theorem filter_congr_fn {α : Type} (p q : α → Bool) :
    ∀ l : List α, (∀ a ∈ l, p a = q a) → l.filter p = l.filter q := by
  intro l
  induction l with
  | nil => intro _; rfl
  | cons a t ih =>
    intro h
    rw [List.filter_cons, List.filter_cons, h a (List.mem_cons_self a t),
      ih (fun b hb => h b (List.mem_cons_of_mem a hb))]

theorem isSpaceChar_ofNat_upper (n : Nat) (h1 : 65 ≤ n) (h2 : n ≤ 90) :
    isSpaceChar (Char.ofNat (n + 32)) = false := by
  interval_cases n <;> decide

theorem pyLower_space_eq (a : Char) (ha : isSpaceChar a = true → a = ' ') :
    isSpaceChar (pyLower a) = true → pyLower a = ' ' := by
  unfold pyLower
  by_cases h : 65 ≤ a.toNat ∧ a.toNat ≤ 90
  · rw [if_pos h, isSpaceChar_ofNat_upper a.toNat h.1 h.2]
    intro hf
    exact absurd hf (by simp)
  · rw [if_neg h]
    exact ha

theorem allowed_eq_spec_allowed (c : Char) (hc : isSpaceChar c = true → c = ' ') :
    allowedChar c = spec_allowed_char c := by
  by_cases hs : isSpaceChar c = true
  · rw [hc hs]
    decide
  · have h1 : isSpaceChar c = false := by
      cases h : isSpaceChar c
      · rfl
      · exact absurd h hs
    have h2 : decide (c = ' ') = false :=
      decide_eq_false (fun hcc => hs (by rw [hcc]; rfl))
    unfold allowedChar spec_allowed_char
    rw [h1, h2]

theorem filter_allowed_eq_spec (l : List Char)
    (h : ∀ c ∈ l, isSpaceChar c = true → c = ' ') :
    (l.map pyLower).filter allowedChar = (l.map pyLower).filter spec_allowed_char := by
  apply filter_congr_fn
  intro c hc
  rw [List.mem_map] at hc
  obtain ⟨a, ha, rfl⟩ := hc
  exact allowed_eq_spec_allowed (pyLower a) (pyLower_space_eq a (h a ha))

/-- Counterexample to claim C8 as stated: the source's regex class keeps
every `\s` character (later collapsed to spaces), while the claim's class
`[a-z0-9 .-]` admits only the space character and deletes a tab outright.
At the input `"a\tb"` the source yields `"a b"`, the claim's reference
pipeline yields `"ab"`. -/
theorem normalize_name_spec_tab_cex :
    normalize_name (some "a\tb") = "a b" ∧
      spec_normalize_name (some "a\tb") = "ab" ∧
      normalize_name (some "a\tb") ≠ spec_normalize_name (some "a\tb") :=
  ⟨by decide, by decide, by decide⟩

/-- Claim C8 (amended): `_normalize_name` equals the spec's reference
pipeline on every input whose whitespace characters are all plain spaces;
on other whitespace the source keeps-and-collapses where the claim's class
`[a-z0-9 .-]` deletes.  `None` or empty input yields the empty string, and
the function is total and deterministic (it is a Lean function). -/
theorem normalize_name_eq_spec_on_plain_spaces :
    (∀ s : Option String,
        (∀ c ∈ (s.getD "").data, isSpaceChar c = true → c = ' ') →
        normalize_name s = spec_normalize_name s) ∧
      normalize_name none = "" ∧ normalize_name (some "") = "" := by
  refine ⟨?_, rfl, rfl⟩
  intro s hs
  match s with
  | none => rfl
  | some t =>
    by_cases ht : t = ""
    · subst ht; rfl
    · rw [normalize_some t ht]
      show String.mk (normChars t.data) = _
      unfold normChars spec_normalize_name
      rw [filter_allowed_eq_spec t.data hs]
      rfl

/-- Witness for the amended C8: the hypothesis and conclusion hold at the
space-only input "John Smith Jr.". -/
theorem normalize_name_eq_spec_on_plain_spaces_witness :
    (∀ c ∈ ((some "John Smith Jr.").getD "").data, isSpaceChar c = true → c = ' ') ∧
      normalize_name (some "John Smith Jr.")
        = spec_normalize_name (some "John Smith Jr.") :=
  ⟨by decide,
    normalize_name_eq_spec_on_plain_spaces.1 (some "John Smith Jr.") (by decide)⟩

/-! Supporting lemmas for the matcher claims. -/

theorem lookup_candidates_nil (st : PullState) (norm : String)
    (h1 : (alookup st.name_to_ids norm).getD [] = [])
    (h2 : st.fuzzy norm (st.name_to_ids.map Prod.fst) = none) :
    lookup_candidates st norm = [] := by
  simp [lookup_candidates, h1, h2]

theorem filtered_candidates_spec (st : PullState) (e : RosterEntry) (pid : String)
    (h : pid ∈ filtered_candidates st e) :
    pid ∈ lookup_candidates st (normalize_name (some e.name)) ∧
      cand_pos st pid = normalize_pos e.display_position ∧
      (normalize_team e.editorial_team_abbr = "" ∨ cand_team st pid = "" ∨
        normalize_team e.editorial_team_abbr = cand_team st pid) := by
  unfold filtered_candidates at h
  rw [List.mem_filter] at h
  refine ⟨h.1, ?_⟩
  have h2 := h.2
  simp only [Bool.and_eq_true, Bool.or_eq_true, beq_iff_eq] at h2
  tauto

theorem best_step_cases (m : List (String × Nat)) (acc : Option Nat) (pid : String) :
    best_step m acc pid = acc ∨
      ∃ r, alookup m pid = some r ∧ best_step m acc pid = some r := by
  cases hm : alookup m pid with
  | none => exact Or.inl (by simp [best_step, hm])
  | some r =>
    cases acc with
    | none => exact Or.inr ⟨r, rfl, by simp [best_step, hm]⟩
    | some b =>
      by_cases hr : r < b
      · exact Or.inr ⟨r, rfl, by simp [best_step, hm, hr]⟩
      · exact Or.inl (by simp [best_step, hm, hr])

theorem foldl_best_mem (m : List (String × Nat)) :
    ∀ (ids : List String) (acc : Option Nat) (r : Nat),
      ids.foldl (best_step m) acc = some r →
      acc = some r ∨ ∃ pid ∈ ids, alookup m pid = some r := by
  intro ids
  induction ids with
  | nil => intro acc r h; exact Or.inl h
  | cons p t ih =>
    intro acc r h
    rw [List.foldl_cons] at h
    rcases ih (best_step m acc p) r h with h1 | h1
    · rcases best_step_cases m acc p with h2 | ⟨r', hr', h2⟩
      · exact Or.inl (h2 ▸ h1)
      · rw [h1] at h2
        injection h2 with h3
        subst h3
        exact Or.inr ⟨p, List.mem_cons_self p t, hr'⟩
    · obtain ⟨pid, hmem, hl⟩ := h1
      exact Or.inr ⟨pid, List.mem_cons_of_mem p hmem, hl⟩

theorem best_rank_mem (m : List (String × Nat)) (ids : List String) (r : Nat)
    (h : best_rank m ids = some r) : ∃ pid ∈ ids, alookup m pid = some r := by
  rcases foldl_best_mem m ids none r h with h1 | h1
  · exact absurd h1 (by simp)
  · exact h1

theorem match_rank_against_nil_cands (tables : List (String × List (String × Nat)))
    (st : PullState) (e : RosterEntry)
    (h : lookup_candidates st (normalize_name (some e.name)) = []) :
    match_rank_against tables st e = none := by
  have hf : filtered_candidates st e = [] := by
    unfold filtered_candidates
    rw [h]
    rfl
  simp only [match_rank_against, h, hf]
  split_ifs <;> rfl

theorem match_rank_against_filtered (tables : List (String × List (String × Nat)))
    (st : PullState) (e : RosterEntry) (r : Nat)
    (hf : filtered_candidates st e ≠ [])
    (h : match_rank_against tables st e = some r) :
    ∃ pid ∈ filtered_candidates st e,
      alookup ((alookup tables (normalize_pos e.display_position)).getD []) pid
        = some r := by
  simp only [match_rank_against] at h
  split_ifs at h with h1 h2 h3
  exact best_rank_mem _ _ r h

theorem foldl_max_init_le : ∀ (l : List Nat) (a : Nat), a ≤ l.foldl Nat.max a := by
  intro l
  induction l with
  | nil => intro a; exact Nat.le_refl a
  | cons b t ih =>
    intro a
    rw [List.foldl_cons]
    exact Nat.le_trans (Nat.le_max_left a b) (ih (Nat.max a b))

theorem le_foldl_max_of_mem : ∀ (l : List Nat) (a x : Nat), x ∈ l → x ≤ l.foldl Nat.max a := by
  intro l
  induction l with
  | nil => intro a x h; exact absurd h (List.not_mem_nil x)
  | cons b t ih =>
    intro a x h
    rw [List.foldl_cons]
    rcases List.mem_cons.mp h with h | h
    · subst h
      exact Nat.le_trans (Nat.le_max_right a x) (foldl_max_init_le t (Nat.max a x))
    · exact ih (Nat.max a b) x h

theorem lt_max_rank_val_succ (m : List (String × Nat)) (qr : String × Nat)
    (h : qr ∈ m) : qr.2 < max_rank_val m + 1 := by
  have : qr.2 ≤ max_rank_val m :=
    le_foldl_max_of_mem (m.map Prod.snd) 0 qr.2 (List.mem_map_of_mem Prod.snd h)
  omega

/-- Claim C1: when both the ADP source and the trending source resolve a
roster entry to a rank, `_match_sleeper_composite_rank` returns the ADP
(first-priority) rank — never a blend of the two. -/
theorem composite_first_source_wins (st : PullState) (e : RosterEntry) (ra rt : Nat)
    (h1 : match_sleeper_adp_rank st e = some ra)
    (h2 : match_sleeper_trending_rank st e = some rt) :
    match_sleeper_composite_rank st e = some ra := by
  unfold match_sleeper_composite_rank
  rw [h1]

/-- Witness for C1: in `st_c1` the ADP source ranks the entry 3 and the
trending source ranks it 7, and the composite resolver returns 3. -/
theorem composite_first_source_wins_witness :
    match_sleeper_adp_rank st_c1 entry_ws = some 3 ∧
      match_sleeper_trending_rank st_c1 entry_ws = some 7 ∧
      match_sleeper_composite_rank st_c1 entry_ws = some 3 :=
  ⟨by decide, by decide,
    composite_first_source_wins st_c1 entry_ws 3 7 (by decide) (by decide)⟩

/-- Claim C3: when the normalized name is absent from the identity index
both by exact lookup and by fuzzy match, the composite resolver returns
`none` — not an error and not a fallback rank. -/
theorem composite_none_when_unknown (st : PullState) (e : RosterEntry)
    (h1 : (alookup st.name_to_ids (normalize_name (some e.name))).getD [] = [])
    (h2 : st.fuzzy (normalize_name (some e.name)) (st.name_to_ids.map Prod.fst) = none) :
    match_sleeper_composite_rank st e = none := by
  have hc := lookup_candidates_nil st _ h1 h2
  have ha : match_sleeper_adp_rank st e = none :=
    match_rank_against_nil_cands _ st e hc
  have ht : match_sleeper_trending_rank st e = none :=
    match_rank_against_nil_cands _ st e hc
  simp only [match_sleeper_composite_rank, ha, ht, hc]
  rfl

/-- Witness for C3: a state with nonempty rank tables and a nonempty
identity index in which an unknown name resolves to `none`. -/
theorem composite_none_when_unknown_witness :
    (alookup st_c1.name_to_ids (normalize_name (some "Unknown Player"))).getD [] = [] ∧
      st_c1.fuzzy (normalize_name (some "Unknown Player"))
        (st_c1.name_to_ids.map Prod.fst) = none ∧
      match_sleeper_composite_rank st_c1 ⟨"Unknown Player", "WR", "KC"⟩ = none :=
  ⟨by decide, by decide,
    composite_none_when_unknown st_c1 ⟨"Unknown Player", "WR", "KC"⟩
      (by decide) (by decide)⟩

/-- Claim C2: when neither source yields a rank but a same-position
candidate identity is found, the composite resolver returns one more than
the maximum rank of the best available table for the position — the ADP
table when it is nonempty, otherwise the trending table — which is
strictly greater than every explicit rank in that table. -/
theorem composite_fallback_after_all_ranks (st : PullState) (e : RosterEntry) (pid : String)
    (ha : match_sleeper_adp_rank st e = none)
    (ht : match_sleeper_trending_rank st e = none)
    (hfind : (lookup_candidates st (normalize_name (some e.name))).find?
      (fun p => cand_pos st p == normalize_pos e.display_position) = some pid) :
    ((alookup st.sleeper_adp_pos_ranks (normalize_pos e.display_position)).getD [] ≠ [] →
      match_sleeper_composite_rank st e = some (max_rank_val
          ((alookup st.sleeper_adp_pos_ranks (normalize_pos e.display_position)).getD []) + 1) ∧
        ∀ qr ∈ (alookup st.sleeper_adp_pos_ranks (normalize_pos e.display_position)).getD [],
          qr.2 < max_rank_val
            ((alookup st.sleeper_adp_pos_ranks (normalize_pos e.display_position)).getD []) + 1) ∧
    ((alookup st.sleeper_adp_pos_ranks (normalize_pos e.display_position)).getD [] = [] →
      (alookup st.sleeper_pos_ranks (normalize_pos e.display_position)).getD [] ≠ [] →
      match_sleeper_composite_rank st e = some (max_rank_val
          ((alookup st.sleeper_pos_ranks (normalize_pos e.display_position)).getD []) + 1) ∧
        ∀ qr ∈ (alookup st.sleeper_pos_ranks (normalize_pos e.display_position)).getD [],
          qr.2 < max_rank_val
            ((alookup st.sleeper_pos_ranks (normalize_pos e.display_position)).getD []) + 1) := by
  have hcomp : match_sleeper_composite_rank st e =
      pos_fallback_rank st (normalize_pos e.display_position) := by
    simp only [match_sleeper_composite_rank, ha, ht, hfind]
  constructor
  · intro hA
    refine ⟨?_, fun qr hqr => lt_max_rank_val_succ _ qr hqr⟩
    rw [hcomp]
    simp only [pos_fallback_rank, if_pos hA]
  · intro hA hT
    refine ⟨?_, fun qr hqr => lt_max_rank_val_succ _ qr hqr⟩
    rw [hcomp]
    simp only [pos_fallback_rank, hA, hT]
    simp only [ne_eq, not_true_eq_false, if_false, if_pos hT]

/-- Witness for C2: in `st_c2` both matchers miss, the identity is found
at WR, and the composite resolver returns 6 = max ADP WR rank 5 plus 1. -/
theorem composite_fallback_after_all_ranks_witness :
    match_sleeper_adp_rank st_c2 entry_ws = none ∧
      match_sleeper_trending_rank st_c2 entry_ws = none ∧
      (lookup_candidates st_c2 (normalize_name (some entry_ws.name))).find?
        (fun p => cand_pos st_c2 p == normalize_pos entry_ws.display_position) = some "1" ∧
      ((alookup st_c2.sleeper_adp_pos_ranks
          (normalize_pos entry_ws.display_position)).getD [] ≠ [] →
        match_sleeper_composite_rank st_c2 entry_ws = some (max_rank_val
            ((alookup st_c2.sleeper_adp_pos_ranks
              (normalize_pos entry_ws.display_position)).getD []) + 1) ∧
          ∀ qr ∈ (alookup st_c2.sleeper_adp_pos_ranks
              (normalize_pos entry_ws.display_position)).getD [],
            qr.2 < max_rank_val ((alookup st_c2.sleeper_adp_pos_ranks
              (normalize_pos entry_ws.display_position)).getD []) + 1) :=
  ⟨by decide, by decide, by decide,
    (composite_fallback_after_all_ranks st_c2 entry_ws "1"
      (by decide) (by decide) (by decide)).1⟩

/-- Counterexample to claim C4 as stated: in `st_c4` the single candidate
for the entry has team NE while the entry has team KC (team data present
on both sides and different, so the position/team filter rejects it), yet
`_match_sleeper_trending_rank` still returns that candidate's rank 4,
because `use_ids = filtered or candidate_ids` falls back to the unfiltered
candidate list when the filter leaves nothing. -/
theorem match_rank_team_filter_bypassed :
    match_sleeper_trending_rank st_c4 entry_ws = some 4 ∧
      lookup_candidates st_c4 (normalize_name (some entry_ws.name)) = ["7"] ∧
      alookup ((alookup st_c4.sleeper_pos_ranks
        (normalize_pos entry_ws.display_position)).getD []) "7" = some 4 ∧
      normalize_team entry_ws.editorial_team_abbr = "KC" ∧
      cand_team st_c4 "7" = "NE" ∧
      filtered_candidates st_c4 entry_ws = [] := by
  refine ⟨by decide, by decide, by decide, by decide, by decide, by decide⟩

/-- Claim C4 (amended): whenever the position/team filter retains at least
one candidate, any rank returned by `_match_sleeper_adp_rank` or
`_match_sleeper_trending_rank` belongs to a filtered candidate — same
position as the entry, and same normalized team whenever team data is
present on both sides.  (When the filter retains nothing the source falls
back to the unfiltered candidates, which is what the counterexample
exhibits.) -/
theorem matchers_respect_filter (st : PullState) (e : RosterEntry) (r : Nat)
    (hf : filtered_candidates st e ≠ []) :
    (match_sleeper_adp_rank st e = some r →
      ∃ pid ∈ filtered_candidates st e,
        alookup ((alookup st.sleeper_adp_pos_ranks
            (normalize_pos e.display_position)).getD []) pid = some r ∧
          cand_pos st pid = normalize_pos e.display_position ∧
          (normalize_team e.editorial_team_abbr = "" ∨ cand_team st pid = "" ∨
            normalize_team e.editorial_team_abbr = cand_team st pid)) ∧
    (match_sleeper_trending_rank st e = some r →
      ∃ pid ∈ filtered_candidates st e,
        alookup ((alookup st.sleeper_pos_ranks
            (normalize_pos e.display_position)).getD []) pid = some r ∧
          cand_pos st pid = normalize_pos e.display_position ∧
          (normalize_team e.editorial_team_abbr = "" ∨ cand_team st pid = "" ∨
            normalize_team e.editorial_team_abbr = cand_team st pid)) := by
  constructor
  · intro h
    obtain ⟨pid, hm, hl⟩ := match_rank_against_filtered _ st e r hf h
    obtain ⟨_, hp, ht⟩ := filtered_candidates_spec st e pid hm
    exact ⟨pid, hm, hl, hp, ht⟩
  · intro h
    obtain ⟨pid, hm, hl⟩ := match_rank_against_filtered _ st e r hf h
    obtain ⟨_, hp, ht⟩ := filtered_candidates_spec st e pid hm
    exact ⟨pid, hm, hl, hp, ht⟩

/-- Witness for the amended C4: in `st_c1` the filter retains candidate 1
and the ADP rank 3 indeed belongs to a same-position, same-team filtered
candidate. -/
theorem matchers_respect_filter_witness :
    filtered_candidates st_c1 entry_ws ≠ [] ∧
      ((match_sleeper_adp_rank st_c1 entry_ws = some 3 →
        ∃ pid ∈ filtered_candidates st_c1 entry_ws,
          alookup ((alookup st_c1.sleeper_adp_pos_ranks
              (normalize_pos entry_ws.display_position)).getD []) pid = some 3 ∧
            cand_pos st_c1 pid = normalize_pos entry_ws.display_position ∧
            (normalize_team entry_ws.editorial_team_abbr = "" ∨
              cand_team st_c1 pid = "" ∨
              normalize_team entry_ws.editorial_team_abbr = cand_team st_c1 pid)) ∧
      (match_sleeper_trending_rank st_c1 entry_ws = some 3 →
        ∃ pid ∈ filtered_candidates st_c1 entry_ws,
          alookup ((alookup st_c1.sleeper_pos_ranks
              (normalize_pos entry_ws.display_position)).getD []) pid = some 3 ∧
            cand_pos st_c1 pid = normalize_pos entry_ws.display_position ∧
            (normalize_team entry_ws.editorial_team_abbr = "" ∨
              cand_team st_c1 pid = "" ∨
              normalize_team entry_ws.editorial_team_abbr = cand_team st_c1 pid))) :=
  ⟨by decide, matchers_respect_filter st_c1 entry_ws 3 (by decide)⟩

theorem stable_insert_perm {α : Type} (precede : α → α → Bool) (x : α) :
    ∀ l : List α, (stable_insert precede x l).Perm (x :: l) := by
  intro l
  induction l with
  | nil => exact List.Perm.refl _
  | cons y ys ih =>
    rw [stable_insert]
    by_cases h : precede x y = true
    · rw [if_pos h]
    · rw [if_neg h]
      exact (List.Perm.cons y ih).trans (List.Perm.swap x y ys)

theorem stable_sort_foldl_perm {α : Type} (precede : α → α → Bool) :
    ∀ (l acc : List α),
      (l.foldl (fun acc x => stable_insert precede x acc) acc).Perm (acc ++ l) := by
  intro l
  induction l with
  | nil => intro acc; rw [List.append_nil]; exact List.Perm.refl _
  | cons x xs ih =>
    intro acc
    rw [List.foldl_cons]
    refine (ih (stable_insert precede x acc)).trans ?_
    refine (List.Perm.append_right xs (stable_insert_perm precede x acc)).trans ?_
    exact List.perm_middle.symm

theorem stable_sort_perm {α : Type} (precede : α → α → Bool) (l : List α) :
    (stable_sort precede l).Perm l :=
  stable_sort_foldl_perm precede l []

theorem dict_insert_fresh {α : Type} (k : String) (v : α) :
    ∀ m : List (String × α), k ∉ m.map Prod.fst → dict_insert m k v = m ++ [(k, v)] := by
  intro m
  induction m with
  | nil => intro _; rfl
  | cons p rest ih =>
    intro h
    rw [List.map_cons, List.mem_cons] at h
    push_neg at h
    rw [dict_insert, if_neg (fun hk => h.1 hk.symm)]
    rw [List.cons_append, ih h.2]

theorem ranks_fold_eq :
    ∀ (names : List String) (i : Nat) (m : List (String × Nat)),
      names.Nodup → (∀ n ∈ names, n ∉ m.map Prod.fst) →
      ranks_fold i names m = m ++ zip_ranks i names := by
  intro names
  induction names with
  | nil => intro i m _ _; rw [ranks_fold, zip_ranks, List.append_nil]
  | cons n ns ih =>
    intro i m hnd hfresh
    rw [ranks_fold, zip_ranks,
      dict_insert_fresh n i m (hfresh n (List.mem_cons_self n ns))]
    rw [List.nodup_cons] at hnd
    rw [ih (i + 1) (m ++ [(n, i)]) hnd.2 ?_]
    · rw [List.append_assoc]
      rfl
    · intro x hx
      rw [List.map_append, List.mem_append]
      push_neg
      refine ⟨hfresh x (List.mem_cons_of_mem n hx), ?_⟩
      simp only [List.map_cons, List.map_nil, List.mem_singleton]
      intro hxn
      exact hnd.1 (hxn ▸ hx)

theorem zip_ranks_map_snd :
    ∀ (ns : List String) (i : Nat), (zip_ranks i ns).map Prod.snd = List.range' i ns.length := by
  intro ns
  induction ns with
  | nil => intro i; rfl
  | cons n t ih =>
    intro i
    rw [zip_ranks, List.map_cons, List.length_cons, List.range'_succ, ih (i + 1)]

theorem zip_ranks_map_fst :
    ∀ (ns : List String) (i : Nat), (zip_ranks i ns).map Prod.fst = ns := by
  intro ns
  induction ns with
  | nil => intro i; rfl
  | cons n t ih =>
    intro i
    rw [zip_ranks, List.map_cons, ih (i + 1)]

/-- Counterexample to claim C5 as stated: the ADP record list can mention
the same player id twice (the source appends records from several
candidate endpoints, lines 474-504).  With two records for QB id 1 the
grouped QB list has two entries, but the rank-map dict assignment
`rank_map[pid] = idx` overwrites, leaving only rank 2 — the assigned
ranks are neither `{1, 2}` (one per grouped entry) nor `{1}` (one per
distinct player): not a dense permutation. -/
theorem adp_ranks_not_dense_on_duplicates :
    adp_group [("1", (1 : ℚ)), ("1", (2 : ℚ))] [("1", ⟨none, none, some "QB", none⟩)]
        = [("QB", [((1 : ℚ), "1"), ((2 : ℚ), "1")])] ∧
      fetch_sleeper_adp_pos_ranks [("1", (1 : ℚ)), ("1", (2 : ℚ))]
        [("1", ⟨none, none, some "QB", none⟩)] = [("QB", [("1", 2)])] ∧
      ([("1", 2)] : List (String × Nat)).map Prod.snd ≠ List.range' 1 2 ∧
      ([("1", 2)] : List (String × Nat)).map Prod.snd ≠ List.range' 1 1 :=
  ⟨by decide, by decide, by decide, by decide⟩

/-- Claim C5 (amended): both rank builders assign the dense ranks `1..N`
exactly once each within a position, provided the keyed entries at that
position are pairwise distinct — which always holds for the Yahoo builder
(its per-position stats are dict-keyed by normalized name) and holds for
the ADP builder whenever no player id is recorded twice at a position. -/
theorem build_ranks_dense :
    (∀ (pts : List (String × List (String × ℚ × ℚ)))
        (pos : String) (stats : List (String × ℚ × ℚ)),
      (pos, stats) ∈ pts → (stats.map Prod.fst).Nodup →
      (pos, build_yahoo_pos_ranks_one stats) ∈ build_yahoo_pos_ranks pts ∧
        (build_yahoo_pos_ranks_one stats).map Prod.snd = List.range' 1 stats.length ∧
        ((build_yahoo_pos_ranks_one stats).map Prod.fst).Perm (stats.map Prod.fst)) ∧
    (∀ (records : List (String × ℚ)) (itp : List (String × SPlayer))
        (pos : String) (items : List (ℚ × String)),
      (pos, items) ∈ adp_group records itp → (items.map Prod.snd).Nodup →
      (pos, adp_rank_one items) ∈ fetch_sleeper_adp_pos_ranks records itp ∧
        (adp_rank_one items).map Prod.snd = List.range' 1 items.length ∧
        ((adp_rank_one items).map Prod.fst).Perm (items.map Prod.snd)) := by
  constructor
  · intro pts pos stats hmem hnd
    have hperm : ((stable_sort yprecede stats).map Prod.fst).Perm (stats.map Prod.fst) :=
      (stable_sort_perm yprecede stats).map Prod.fst
    have hnd' : ((stable_sort yprecede stats).map Prod.fst).Nodup :=
      hperm.symm.nodup hnd
    have heq : build_yahoo_pos_ranks_one stats
        = zip_ranks 1 ((stable_sort yprecede stats).map Prod.fst) := by
      unfold build_yahoo_pos_ranks_one
      rw [ranks_fold_eq _ 1 [] hnd' (by intro n _ h; exact absurd h (List.not_mem_nil n))]
      rfl
    refine ⟨?_, ?_, ?_⟩
    · exact List.mem_map_of_mem (fun pl => (pl.1, build_yahoo_pos_ranks_one pl.2)) hmem
    · rw [heq, zip_ranks_map_snd, List.length_map,
        (stable_sort_perm yprecede stats).length_eq]
    · rw [heq, zip_ranks_map_fst]
      exact hperm
  · intro records itp pos items hmem hnd
    have hperm : ((stable_sort aprecede items).map Prod.snd).Perm (items.map Prod.snd) :=
      (stable_sort_perm aprecede items).map Prod.snd
    have hnd' : ((stable_sort aprecede items).map Prod.snd).Nodup :=
      hperm.symm.nodup hnd
    have heq : adp_rank_one items
        = zip_ranks 1 ((stable_sort aprecede items).map Prod.snd) := by
      unfold adp_rank_one
      rw [ranks_fold_eq _ 1 [] hnd' (by intro n _ h; exact absurd h (List.not_mem_nil n))]
      rfl
    refine ⟨?_, ?_, ?_⟩
    · exact List.mem_map_of_mem (fun pl => (pl.1, adp_rank_one pl.2)) hmem
    · rw [heq, zip_ranks_map_snd, List.length_map,
        (stable_sort_perm aprecede items).length_eq]
    · rw [heq, zip_ranks_map_fst]
      exact hperm

/-- Witness for the amended C5 at concrete inputs: two WRs with distinct
scores get ranks `[1, 2]`, and a two-record ADP list with distinct ids at
QB gets ranks `[1, 2]`. -/
theorem build_ranks_dense_witness :
    (("WR", ystats_w) ∈ ypts_w ∧ (ystats_w.map Prod.fst).Nodup ∧
      ("WR", build_yahoo_pos_ranks_one ystats_w) ∈ build_yahoo_pos_ranks ypts_w ∧
      (build_yahoo_pos_ranks_one ystats_w).map Prod.snd = List.range' 1 2) ∧
    (("QB", aitems_w) ∈ adp_group arecs_w aitp_w ∧ (aitems_w.map Prod.snd).Nodup ∧
      ("QB", adp_rank_one aitems_w) ∈ fetch_sleeper_adp_pos_ranks arecs_w aitp_w ∧
      (adp_rank_one aitems_w).map Prod.snd = List.range' 1 2) := by
  refine ⟨⟨by decide, by decide, ?_, ?_⟩, ⟨by decide, by decide, ?_, ?_⟩⟩
  · exact (build_ranks_dense.1 ypts_w "WR" ystats_w (by decide) (by decide)).1
  · exact ((build_ranks_dense.1 ypts_w "WR" ystats_w (by decide) (by decide)).2.1).trans
      (by decide)
  · exact (build_ranks_dense.2 arecs_w aitp_w "QB" aitems_w (by decide) (by decide)).1
  · exact ((build_ranks_dense.2 arecs_w aitp_w "QB" aitems_w (by decide) (by decide)).2.1).trans
      (by decide)

theorem q14_2_eq : q14_2 = 14.2 := by
  have h : q14_2 = Rat.divInt 71 5 := Rat.mk'_eq_divInt
  rw [h, Rat.divInt_eq_div]
  norm_num

/-- Claim C6: three same-position players with higher-is-better scores
`[14.2, 14.2, 9.0]` and equal tiebreak metric rank `[1, 2, 3]`, the tied
pair keeping input order — never a shared rank such as `[1, 1, 2]`. -/
theorem yahoo_ranks_ties_sequential :
    build_yahoo_pos_ranks_one
        [("a", (14.2 : ℚ), (3 : ℚ)), ("b", (14.2 : ℚ), (3 : ℚ)), ("c", (9 : ℚ), (3 : ℚ))]
      = [("a", 1), ("b", 2), ("c", 3)] := by
  rw [show (14.2 : ℚ) = q14_2 from q14_2_eq.symm]
  decide

theorem fetch_fst :
    ∀ (data : List (String × SPlayer))
      (acc : List (String × List String) × List (String × SPlayer)),
      (data.foldl sleeper_index_step acc).1 = data.foldl sleeper_nti_step acc.1 := by
  intro data
  induction data with
  | nil => intro acc; rfl
  | cons rec t ih =>
    intro acc
    rw [List.foldl_cons, List.foldl_cons, ih]
    congr 1
    unfold sleeper_index_step sleeper_nti_step
    by_cases h1 : eff_name rec.2 = ""
    · simp [h1]
    · by_cases h2 : normalize_name (some (eff_name rec.2)) = ""
      · simp [h1, h2]
      · simp [h1, h2]

theorem alookup_upsert {α : Type} :
    ∀ (m : List (String × List α)) (k0 k : String) (x : α),
      alookup (upsert_bucket m k0 x) k =
        if k = k0 then some ((alookup m k0).getD [] ++ [x]) else alookup m k := by
  intro m
  induction m with
  | nil =>
    intro k0 k x
    by_cases h : k0 = k
    · subst h
      simp [upsert_bucket, alookup]
    · simp only [upsert_bucket, alookup]
      rw [if_neg h, if_neg (fun hk : k = k0 => h hk.symm)]
  | cons p m ih =>
    intro k0 k x
    obtain ⟨k', b⟩ := p
    by_cases h1 : k' = k0
    · subst h1
      by_cases h2 : k' = k
      · subst h2
        simp [upsert_bucket, alookup]
      · simp only [upsert_bucket, alookup, eq_self_iff_true, if_true, if_neg h2]
        rw [if_neg (fun hk : k = k' => h2 hk.symm)]
    · by_cases h2 : k' = k
      · subst h2
        simp [upsert_bucket, alookup, h1, fun hk : k' = k0 => h1 hk]
      · simp [upsert_bucket, alookup, h1, h2, ih k0 k x]

theorem in_bucket_upsert (m : List (String × List String)) (k0 x k pid : String) :
    in_bucket (upsert_bucket m k0 x) k pid ↔
      (k = k0 ∧ (pid = x ∨ in_bucket m k0 pid)) ∨ (k ≠ k0 ∧ in_bucket m k pid) := by
  unfold in_bucket
  simp only [alookup_upsert]
  by_cases h : k = k0
  · subst h
    rw [if_pos rfl]
    constructor
    · rintro ⟨b, hb, hmem⟩
      injection hb with hb
      subst hb
      rw [List.mem_append, List.mem_singleton] at hmem
      refine Or.inl ⟨rfl, ?_⟩
      rcases hmem with hmem | hmem
      · right
        cases halo : alookup m k with
        | none => rw [halo] at hmem; exact absurd hmem (List.not_mem_nil pid)
        | some b0 => rw [halo] at hmem; exact ⟨b0, rfl, hmem⟩
      · exact Or.inl hmem
    · rintro (⟨-, hmem | ⟨b0, hb0, hmem⟩⟩ | ⟨hk, -⟩)
      · exact ⟨_, rfl, by rw [List.mem_append, List.mem_singleton]; exact Or.inr hmem⟩
      · exact ⟨_, rfl, by rw [List.mem_append, hb0]; exact Or.inl hmem⟩
      · exact absurd rfl hk
  · rw [if_neg h]
    constructor
    · intro hb
      exact Or.inr ⟨h, hb⟩
    · rintro (⟨hk, -⟩ | ⟨-, hb⟩)
      · exact absurd hk h
      · exact hb

theorem in_bucket_empty (k pid : String) : ¬ in_bucket [] k pid := by
  rintro ⟨b, hb, -⟩
  rw [show alookup ([] : List (String × List String)) k = none from rfl] at hb
  exact Option.noConfusion hb

/-- Characterization of bucket membership after the index-building fold. -/
theorem in_bucket_fold :
    ∀ (data : List (String × SPlayer)) (m0 : List (String × List String))
      (k pid : String),
      in_bucket (data.foldl sleeper_nti_step m0) k pid ↔
        in_bucket m0 k pid ∨
          ∃ p, (pid, p) ∈ data ∧ eff_name p ≠ "" ∧
            normalize_name (some (eff_name p)) = k ∧ k ≠ "" := by
  intro data
  induction data with
  | nil =>
    intro m0 k pid
    simp only [List.foldl_nil, List.not_mem_nil, false_and, exists_false, or_false]
  | cons rec t ih =>
    intro m0 k pid
    rw [List.foldl_cons, ih]
    unfold sleeper_nti_step
    by_cases h1 : eff_name rec.2 = ""
    · rw [if_pos h1]
      constructor
      · rintro (h | h)
        · exact Or.inl h
        · right
          obtain ⟨p, hp, rest⟩ := h
          exact ⟨p, List.mem_cons_of_mem rec hp, rest⟩
      · rintro (h | ⟨p, hp, hfn, rest⟩)
        · exact Or.inl h
        · rcases List.mem_cons.mp hp with hp | hp
          · exfalso
            apply hfn
            have hps : p = rec.2 := congrArg Prod.snd hp
            rw [hps, h1]
          · exact Or.inr ⟨p, hp, hfn, rest⟩
    · rw [if_neg h1]
      by_cases h2 : normalize_name (some (eff_name rec.2)) = ""
      · rw [if_pos h2]
        constructor
        · rintro (h | h)
          · exact Or.inl h
          · right
            obtain ⟨p, hp, rest⟩ := h
            exact ⟨p, List.mem_cons_of_mem rec hp, rest⟩
        · rintro (h | ⟨p, hp, hfn, hnm, hk⟩)
          · exact Or.inl h
          · rcases List.mem_cons.mp hp with hp | hp
            · exfalso
              apply hk
              have hps : p = rec.2 := congrArg Prod.snd hp
              rw [← hnm, hps, h2]
            · exact Or.inr ⟨p, hp, hfn, hnm, hk⟩
      · rw [if_neg h2, in_bucket_upsert]
        constructor
        · rintro ((⟨hk, hx | hb⟩ | ⟨hk, hb⟩) | h)
          · right
            refine ⟨rec.2, ?_, h1, hk.symm, hk ▸ h2⟩
            rw [hx]
            exact List.mem_cons_self rec t
          · rw [hk]
            exact Or.inl hb
          · exact Or.inl hb
          · right
            obtain ⟨p, hp, rest⟩ := h
            exact ⟨p, List.mem_cons_of_mem rec hp, rest⟩
        · rintro (h | ⟨p, hp, hfn, hnm, hk⟩)
          · by_cases hk : k = normalize_name (some (eff_name rec.2))
            · rw [hk] at h
              exact Or.inl (Or.inl ⟨hk, Or.inr h⟩)
            · exact Or.inl (Or.inr ⟨hk, h⟩)
          · rcases List.mem_cons.mp hp with hp | hp
            · have hps : p = rec.2 := congrArg Prod.snd hp
              have hpid : pid = rec.1 := congrArg Prod.fst hp
              exact Or.inl (Or.inl ⟨by rw [← hnm, hps], Or.inl hpid⟩)
            · exact Or.inr ⟨p, hp, hfn, hnm, hk⟩

theorem mem_unique_of_nodup {α : Type} :
    ∀ (l : List (String × α)) (k : String) (a b : α),
      (l.map Prod.fst).Nodup → (k, a) ∈ l → (k, b) ∈ l → a = b := by
  intro l
  induction l with
  | nil => intro k a b _ ha _; exact absurd ha (List.not_mem_nil _)
  | cons p t ih =>
    intro k a b hnd ha hb
    rw [List.map_cons, List.nodup_cons] at hnd
    rcases List.mem_cons.mp ha with ha | ha <;> rcases List.mem_cons.mp hb with hb | hb
    · have hab : (k, a) = (k, b) := ha.trans hb.symm
      injection hab with h1 h2
    · exfalso
      apply hnd.1
      rw [show p.1 = k from (congrArg Prod.fst ha).symm]
      exact List.mem_map_of_mem Prod.fst hb
    · exfalso
      apply hnd.1
      rw [show p.1 = k from (congrArg Prod.fst hb).symm]
      exact List.mem_map_of_mem Prod.fst ha
    · exact ih k a b hnd.2 ha hb

/-- Counterexample to claim C9 as stated: record id 1 is present in the
input with a (truthy) name "Jr.", but that name normalizes to the empty
string, so `_fetch_sleeper_players` puts the id in no bucket at all —
not in exactly one. -/
theorem index_drops_empty_normalized_name :
    ("1", (⟨some "Jr.", none, some "QB", none⟩ : SPlayer)) ∈ data_c9 ∧
      eff_name ⟨some "Jr.", none, some "QB", none⟩ = "Jr." ∧
      normalize_name (some "Jr.") = "" ∧
      (fetch_sleeper_players_maps data_c9).1 = [] ∧
      ¬ ∃ k, in_bucket (fetch_sleeper_players_maps data_c9).1 k "1" := by
  refine ⟨by decide, by decide, by decide, by decide, ?_⟩
  rintro ⟨k, hk⟩
  rw [show (fetch_sleeper_players_maps data_c9).1 = [] from by decide] at hk
  exact in_bucket_empty k "1" hk

/-- Claim C9 (amended): for an input players dict (distinct ids), every id
whose record has a name that normalizes to a nonempty string lands in
exactly one bucket — the bucket keyed by that normalized name — and ids
whose records normalize to the same name therefore share one bucket.
(Records with no name, or whose name normalizes to the empty string, are
skipped and land in no bucket, which is what the counterexample shows.) -/
theorem index_buckets_by_normalized_name
    (data : List (String × SPlayer)) (pid : String) (p : SPlayer)
    (hnd : (data.map Prod.fst).Nodup) (hmem : (pid, p) ∈ data)
    (hfn : eff_name p ≠ "") (hnorm : normalize_name (some (eff_name p)) ≠ "") :
    in_bucket (fetch_sleeper_players_maps data).1
        (normalize_name (some (eff_name p))) pid ∧
      ∀ k, in_bucket (fetch_sleeper_players_maps data).1 k pid →
        k = normalize_name (some (eff_name p)) := by
  rw [show (fetch_sleeper_players_maps data).1 = data.foldl sleeper_nti_step []
    from fetch_fst data ([], [])]
  constructor
  · rw [in_bucket_fold]
    exact Or.inr ⟨p, hmem, hfn, rfl, hnorm⟩
  · intro k hk
    rw [in_bucket_fold] at hk
    rcases hk with hk | ⟨p', hmem', hfn', hnorm', hk'⟩
    · exact absurd hk (in_bucket_empty k pid)
    · rw [← hnorm', mem_unique_of_nodup data pid p' p hnd hmem' hmem]

/-- Witness for the amended C9: in `data_c9w` id 1 lands exactly in the
bucket "john smith" (which id 2 shares). -/
theorem index_buckets_by_normalized_name_witness :
    (data_c9w.map Prod.fst).Nodup ∧
      ("1", (⟨some "John Smith Jr.", none, some "WR", some "KC"⟩ : SPlayer)) ∈ data_c9w ∧
      eff_name ⟨some "John Smith Jr.", none, some "WR", some "KC"⟩ ≠ "" ∧
      normalize_name (some (eff_name
        ⟨some "John Smith Jr.", none, some "WR", some "KC"⟩)) ≠ "" ∧
      (in_bucket (fetch_sleeper_players_maps data_c9w).1
          (normalize_name (some (eff_name
            ⟨some "John Smith Jr.", none, some "WR", some "KC"⟩))) "1" ∧
        ∀ k, in_bucket (fetch_sleeper_players_maps data_c9w).1 k "1" →
          k = normalize_name (some (eff_name
            ⟨some "John Smith Jr.", none, some "WR", some "KC"⟩))) :=
  ⟨by decide, by decide, by decide, by decide,
    index_buckets_by_normalized_name data_c9w "1"
      ⟨some "John Smith Jr.", none, some "WR", some "KC"⟩
      (by decide) (by decide) (by decide) (by decide)⟩

/-- Claim C10: the `pos_rank` lookup of `serialize_roster` is exactly the
exact-match per-position lookup described by `pos_rank_spec`. -/
theorem lookup_yahoo_pos_rank_exact :
    ∀ (ranks : List (String × List (String × Nat))) (e : RosterEntry),
      lookup_yahoo_pos_rank ranks e = pos_rank_spec ranks e := by
  intro ranks e
  unfold lookup_yahoo_pos_rank pos_rank_spec
  by_cases hn : e.name = ""
  · simp [hn]
  · by_cases hp : normalize_pos e.display_position = ""
    · simp [hn, hp]
    · by_cases hr : ranks = []
      · subst hr
        simp only [if_pos rfl, hn, hp, or_self, if_neg (by simp [hn, hp] : ¬(e.name = "" ∨
          normalize_pos e.display_position = ""))]
        rfl
      · simp only [if_neg hr, if_neg hn, if_neg hp,
          if_neg (by simp [hn, hp] : ¬(e.name = "" ∨
            normalize_pos e.display_position = ""))]
        cases halo : alookup ranks (normalize_pos e.display_position) with
        | none => rfl
        | some m => rfl
